import Mathlib

/-!
Shallow embedding of the whiteboard photo booth's canvas text-fitting and
grid-compositing engine (`getAdjustedFontAndLines` and `drawWhiteboard`).

JavaScript numbers are modelled as exact rationals (ℚ); the canvas text
measurement `ctx.measureText` after `ctx.font = "900 ${fontSize}px ..."` is
modelled as an injected function `m : ℕ → List Char → ℚ` taking the font size
and the text (as the list of characters the source iterates over).
-/

namespace Whiteboard

/-- ECMAScript whitespace characters recognised by `String.prototype.trim`. -/
def isJsWhitespace (c : Char) : Bool :=
  c = ' ' || c = '\t' || c = '\n' || c = '\r' ||
  c = (Char.ofNat 11) || c = (Char.ofNat 12) ||
  c = (Char.ofNat 0x00A0) || c = (Char.ofNat 0x1680) ||
  (0x2000 ≤ c.toNat && c.toNat ≤ 0x200A) ||
  c = (Char.ofNat 0x2028) || c = (Char.ofNat 0x2029) ||
  c = (Char.ofNat 0x202F) || c = (Char.ofNat 0x205F) ||
  c = (Char.ofNat 0x3000) || c = (Char.ofNat 0xFEFF)

/-- `!text || text.trim() === ''`: the text is empty or whitespace-only. -/
def isBlank (text : List Char) : Bool :=
  text.all isJsWhitespace

/-- The ellipsis character appended by the truncation fallback. -/
def ellipsis : Char := '…'

/-- Result type of `getAdjustedFontAndLines`: `{ lines, lineHeight }`. -/
structure FitResult where
  lines : List (List Char)
  lineHeight : ℚ
deriving DecidableEq

/-- The greedy character-wrapping loop shared by the search path and the
fallback path of `getAdjustedFontAndLines` (lines 117-129 / 145-157 of the
source): scan characters, close the current line when appending the next
character would exceed `maxWidth` and the current line is non-empty. -/
def wrapLoop (m : ℕ → List Char → ℚ) (fontSize : ℕ) (maxWidth : ℚ) :
    List Char → List Char → List (List Char)
  | [], currentLine => [currentLine]
  | c :: rest, currentLine =>
    if maxWidth < m fontSize (currentLine ++ [c]) ∧ currentLine ≠ [] then
      currentLine :: wrapLoop m fontSize maxWidth rest [c]
    else
      wrapLoop m fontSize maxWidth rest (currentLine ++ [c])

/-- Greedy character wrapping of a whole text, starting from an empty
current line. -/
def wrapText (m : ℕ → List Char → ℚ) (fontSize : ℕ) (maxWidth : ℚ)
    (text : List Char) : List (List Char) :=
  wrapLoop m fontSize maxWidth text []

/-- The search loop of `getAdjustedFontAndLines` (lines 109-134):
`for (let fontSize = Math.floor(maxHeight); fontSize >= 1; fontSize--)`,
skipping sizes whose line height alone exceeds `maxHeight` and returning the
first (largest) size whose wrapped lines fit.  The returned triple also
records the accepted font size (the loop variable in scope at the return). -/
def searchLoop (m : ℕ → List Char → ℚ) (text : List Char)
    (maxWidth maxHeight : ℚ) : ℕ → Option (ℕ × List (List Char) × ℚ)
  | 0 => none
  | n + 1 =>
    let fontSize := n + 1
    let lineHeight : ℚ := fontSize * (7/5)
    if maxHeight < lineHeight then
      searchLoop m text maxWidth maxHeight n
    else
      let lines := wrapText m fontSize maxWidth text
      if (lines.length : ℚ) * lineHeight ≤ maxHeight then
        some (fontSize, lines, lineHeight)
      else
        searchLoop m text maxWidth maxHeight n

/-- The fallback's last-line trimming loop (line 165):
`while (measure(line + '…') > maxWidth && line.length > 0) drop last`. -/
def trimLastLine (m : ℕ → List Char → ℚ) (maxWidth : ℚ)
    (line : List Char) : List Char :=
  if maxWidth < m 1 (line ++ [ellipsis]) ∧ line ≠ [] then
    trimLastLine m maxWidth line.dropLast
  else
    line
termination_by line.length
decreasing_by
  rename_i h
  have hne : line ≠ [] := h.2
  have hpos : 0 < line.length := List.length_pos.mpr hne
  rw [List.length_dropLast]
  omega

/-- The truncation fallback of `getAdjustedFontAndLines` (lines 136-171):
wrap at the minimum font size 1, slice to the maximal number of whole lines
fitting in `maxHeight`, and when lines were dropped replace the last kept
line by its trimmed form followed by an ellipsis. -/
def fallbackResult (m : ℕ → List Char → ℚ) (text : List Char)
    (maxWidth maxHeight : ℚ) : FitResult :=
  let fallbackLineHeight : ℚ := 7/5
  if maxHeight < fallbackLineHeight then
    ⟨[], 0⟩
  else
    let lines := wrapText m 1 maxWidth text
    let maxLines : ℕ := max 1 (Int.toNat ⌊maxHeight / fallbackLineHeight⌋)
    let truncatedLines := lines.take maxLines
    if maxLines < lines.length ∧ truncatedLines ≠ [] then
      ⟨truncatedLines.dropLast ++
        [trimLastLine m maxWidth (truncatedLines.getLastD []) ++ [ellipsis]],
       fallbackLineHeight⟩
    else
      ⟨truncatedLines, fallbackLineHeight⟩

/-- `getAdjustedFontAndLines(ctx, text, maxWidth, maxHeight)` (lines 96-172),
with the canvas measurement abstracted as `m`. -/
def getAdjustedFontAndLines (m : ℕ → List Char → ℚ) (text : List Char)
    (maxWidth maxHeight : ℚ) : FitResult :=
  if isBlank text ∨ maxWidth ≤ 0 ∨ maxHeight ≤ 0 then
    ⟨[], 0⟩
  else
    match searchLoop m text maxWidth maxHeight (Int.toNat ⌊maxHeight⌋) with
    | some (_, lines, lineHeight) => ⟨lines, lineHeight⟩
    | none => fallbackResult m text maxWidth maxHeight

/-- `NUM_ROWS = 5` (line 92). -/
def NUM_ROWS : ℕ := 5

/-- `NUM_COLS = 2` (line 93). -/
def NUM_COLS : ℕ := 2

/-- `borderPadding = boardWidth * 0.025` (line 178). -/
def borderPadding (boardWidth : ℚ) : ℚ := boardWidth * (25/1000)

/-- `textPadding = boardWidth * 0.015` (line 179). -/
def textPadding (boardWidth : ℚ) : ℚ := boardWidth * (15/1000)

/-- `gridWidth = boardWidth - borderPadding * 2` (line 181). -/
def gridWidth (boardWidth : ℚ) : ℚ := boardWidth - borderPadding boardWidth * 2

/-- `gridHeight = boardHeight - borderPadding * 2` (line 182). -/
def gridHeight (boardWidth boardHeight : ℚ) : ℚ :=
  boardHeight - borderPadding boardWidth * 2

/-- `colWidths = [gridWidth * 0.3, gridWidth * 0.7]` (line 184). -/
def colWidths (boardWidth : ℚ) : List ℚ :=
  [gridWidth boardWidth * (3/10), gridWidth boardWidth * (7/10)]

/-- `cellHeight = gridHeight / NUM_ROWS` (line 185). -/
def cellHeight (boardWidth boardHeight : ℚ) : ℚ :=
  gridHeight boardWidth boardHeight / (NUM_ROWS : ℚ)

/-- `effectiveCellHeight = cellHeight - textPadding * 2` (line 186). -/
def effectiveCellHeight (boardWidth boardHeight : ℚ) : ℚ :=
  cellHeight boardWidth boardHeight - textPadding boardWidth * 2

/-- `effectiveCellWidth = colWidths[col] - textPadding * 2` (line 232). -/
def effectiveCellWidth (boardWidth : ℚ) (col : ℕ) : ℚ :=
  (colWidths boardWidth).getD col 0 - textPadding boardWidth * 2

/-- `cellLeftX = borderPadding + (col === 0 ? 0 : colWidths[0])` (line 242). -/
def cellLeftX (boardWidth : ℚ) (col : ℕ) : ℚ :=
  borderPadding boardWidth +
    (if col = 0 then 0 else (colWidths boardWidth).getD 0 0)

/-- `cellTopY = borderPadding + row * cellHeight` (line 243). -/
def cellTopY (boardWidth boardHeight : ℚ) (row : ℕ) : ℚ :=
  borderPadding boardWidth + (row : ℚ) * cellHeight boardWidth boardHeight

/-- JavaScript `String.prototype.split` with a single-character separator:
splits on every occurrence, keeping empty pieces. -/
def splitOnChar (sep : Char) : List Char → List (List Char)
  | [] => [[]]
  | c :: rest =>
    if c = sep then
      [] :: splitOnChar sep rest
    else
      match splitOnChar sep rest with
      | s :: ss => (c :: s) :: ss
      | [] => [[c]]

/-- The regex test `^\d{4}-\d{2}-\d{2}$` of line 189. -/
def matchesIsoDate (s : String) : Bool :=
  match s.toList with
  | [y1, y2, y3, y4, h1, m1, m2, h2, d1, d2] =>
    y1.isDigit && y2.isDigit && y3.isDigit && y4.isDigit && h1 = '-' &&
    m1.isDigit && m2.isDigit && h2 = '-' && d1.isDigit && d2.isDigit
  | _ => false

/-- `const [year, month, day] = t.split('-')` followed by the template
literal `` `${year}年${month}月${day}日` `` (lines 190-191). -/
def formatLocalizedDate (s : String) : String :=
  match splitOnChar '-' s.toList with
  | year :: month :: day :: _ =>
    String.mk year ++ "年" ++ String.mk month ++ "月" ++ String.mk day ++ "日"
  | _ => s

/-- `const textsToDraw = [...texts]` with the conditional index-7 rewrite of
lines 188-192: the compositor's display copy of the caller's texts. -/
def textsToDraw (texts : List String) : List String :=
  match texts[7]? with
  | some t =>
    if t ≠ "" ∧ matchesIsoDate t then texts.set 7 (formatLocalizedDate t)
    else texts
  | none => texts

/-- The font size in scope at the return statement that produced the result:
0 on the empty-result paths, the accepted size on the search path, and the
minimum size 1 on the truncation fallback. -/
def chosenFontSize (m : ℕ → List Char → ℚ) (text : List Char)
    (maxWidth maxHeight : ℚ) : ℕ :=
  if isBlank text ∨ maxWidth ≤ 0 ∨ maxHeight ≤ 0 then 0
  else
    match searchLoop m text maxWidth maxHeight (Int.toNat ⌊maxHeight⌋) with
    | some (fontSize, _, _) => fontSize
    | none => if maxHeight < (7/5 : ℚ) then 0 else 1

end Whiteboard

namespace Whiteboard

example : wrapText (fun _ s => (s.length : ℚ) * 10) 3 25
    ['a','b','c','d','e'] = [['a','b'],['c','d'],['e']] := by
  norm_num [wrapText, wrapLoop, List.cons_ne_nil]

/-- The result of the greedy wrap always consists of at least one line
(the final unconditional `lines.push(currentLine)`). -/
theorem wrapLoop_length_pos (m : ℕ → List Char → ℚ) (fs : ℕ) (W : ℚ)
    (rest : List Char) : ∀ cur, 0 < (wrapLoop m fs W rest cur).length := by
  induction rest with
  | nil => intro cur; simp [wrapLoop]
  | cons c r ih =>
    intro cur
    rw [wrapLoop]
    split
    · simp
    · exact ih (cur ++ [c])

/-- Concatenating the greedy wrap's lines recovers the current line followed
by the remaining text: no character is dropped, duplicated or reordered. -/
theorem wrapLoop_join (m : ℕ → List Char → ℚ) (fs : ℕ) (W : ℚ)
    (rest : List Char) : ∀ cur, (wrapLoop m fs W rest cur).flatten = cur ++ rest := by
  induction rest with
  | nil => intro cur; simp [wrapLoop]
  | cons c r ih =>
    intro cur
    rw [wrapLoop]
    split
    · simp [ih [c]]
    · simp [ih (cur ++ [c])]

/-- Every line produced by the greedy wrap is non-empty, provided the
current line is non-empty or there is text left to wrap. -/
theorem wrapLoop_mem_ne_nil (m : ℕ → List Char → ℚ) (fs : ℕ) (W : ℚ)
    (rest : List Char) : ∀ cur, (cur = [] → rest ≠ []) →
    ∀ l ∈ wrapLoop m fs W rest cur, l ≠ [] := by
  induction rest with
  | nil =>
    intro cur hcur l hl
    simp only [wrapLoop, List.mem_singleton] at hl
    subst hl
    intro h
    exact hcur h rfl
  | cons c r ih =>
    intro cur hcur l hl
    rw [wrapLoop] at hl
    split at hl
    · rename_i hcond
      rcases List.mem_cons.mp hl with h | h
      · subst h; exact hcond.2
      · exact ih [c] (by simp) l h
    · exact ih (cur ++ [c]) (by simp) l hl

/-- Width invariant of the greedy wrap: every produced line is a single
character or measures at most `maxWidth`.  (A single character wider than
`maxWidth` is placed on its own line without further splitting.) -/
theorem wrapLoop_mem_width (m : ℕ → List Char → ℚ) (fs : ℕ) (W : ℚ)
    (rest : List Char) : ∀ cur, (cur = [] → rest ≠ []) →
    (cur ≠ [] → cur.length = 1 ∨ m fs cur ≤ W) →
    ∀ l ∈ wrapLoop m fs W rest cur, l.length = 1 ∨ m fs l ≤ W := by
  induction rest with
  | nil =>
    intro cur hcur hinv l hl
    simp only [wrapLoop, List.mem_singleton] at hl
    subst hl
    exact hinv (fun h => hcur h rfl)
  | cons c r ih =>
    intro cur hcur hinv l hl
    rw [wrapLoop] at hl
    split at hl
    · rename_i hcond
      rcases List.mem_cons.mp hl with h | h
      · subst h; exact hinv hcond.2
      · exact ih [c] (by simp) (fun _ => Or.inl rfl) l h
    · rename_i hcond
      refine ih (cur ++ [c]) (by simp) (fun _ => ?_) l hl
      rcases Classical.em (cur = []) with hnil | hnil
      · subst hnil; exact Or.inl rfl
      · right
        rcases not_and_or.mp hcond with h | h
        · exact le_of_not_lt h
        · exact absurd hnil h

/-- A candidate font size whose line height alone exceeds `maxHeight` also
fails the acceptance test, because the wrap yields at least one line. -/
theorem reject_of_maxHeight_lt (m : ℕ → List Char → ℚ) (text : List Char)
    (W H : ℚ) (g : ℕ) (hg : 1 ≤ g) (hH : H < (g : ℚ) * (7/5)) :
    ¬ ((wrapText m g W text).length : ℚ) * ((g : ℚ) * (7/5)) ≤ H := by
  intro hle
  have hpos : 0 < (wrapText m g W text).length :=
    wrapLoop_length_pos m g W text []
  have h1 : (1 : ℚ) ≤ ((wrapText m g W text).length : ℚ) := by
    exact_mod_cast hpos
  have hq : (0 : ℚ) ≤ (g : ℚ) * (7/5) := by positivity
  nlinarith

/-- Characterisation of a successful run of the search loop: the accepted
size is at least 1, at most the loop's starting size, its lines are the
greedy wrap at that size, the acceptance test holds, and every larger size
within range fails the acceptance test (first-fit-from-largest). -/
theorem searchLoop_some_spec (m : ℕ → List Char → ℚ) (text : List Char)
    (W H : ℚ) : ∀ n fs L lh,
    searchLoop m text W H n = some (fs, L, lh) →
    1 ≤ fs ∧ fs ≤ n ∧ lh = (fs : ℚ) * (7/5) ∧ L = wrapText m fs W text ∧
    (L.length : ℚ) * lh ≤ H ∧
    ∀ g, fs < g → g ≤ n →
      ¬ ((wrapText m g W text).length : ℚ) * ((g : ℚ) * (7/5)) ≤ H := by
  intro n
  induction n with
  | zero => intro fs L lh h; simp [searchLoop] at h
  | succ n ih =>
    intro fs L lh h
    rw [searchLoop] at h
    split at h
    · rename_i hskip
      obtain ⟨h1, h2, h3, h4, h5, h6⟩ := ih fs L lh h
      refine ⟨h1, Nat.le_succ_of_le h2, h3, h4, h5, ?_⟩
      intro g hfs hg
      rcases Nat.lt_or_ge n g with hgn | hgn
      · have hgeq : g = n + 1 := by omega
        subst hgeq
        exact reject_of_maxHeight_lt m text W H (n+1) (by omega)
          (by exact_mod_cast hskip)
      · exact h6 g hfs hgn
    · rename_i hskip
      simp only [] at h
      split at h
      · rename_i haccept
        simp only [Option.some.injEq, Prod.mk.injEq] at h
        obtain ⟨hfs, hL, hlh⟩ := h
        subst hfs; subst hL; subst hlh
        refine ⟨by omega, le_refl _, by push_cast; ring, rfl,
          by exact_mod_cast haccept, ?_⟩
        intro g hfs hg
        omega
      · rename_i haccept
        obtain ⟨h1, h2, h3, h4, h5, h6⟩ := ih fs L lh h
        refine ⟨h1, Nat.le_succ_of_le h2, h3, h4, h5, ?_⟩
        intro g hfs hg
        rcases Nat.lt_or_ge n g with hgn | hgn
        · have hgeq : g = n + 1 := by omega
          subst hgeq
          exact fun hle => haccept (by exact_mod_cast hle)
        · exact h6 g hfs hgn

/-- Characterisation of a failed run of the search loop: every size in the
searched range fails the acceptance test. -/
theorem searchLoop_none_spec (m : ℕ → List Char → ℚ) (text : List Char)
    (W H : ℚ) : ∀ n, searchLoop m text W H n = none →
    ∀ g, 1 ≤ g → g ≤ n →
      ¬ ((wrapText m g W text).length : ℚ) * ((g : ℚ) * (7/5)) ≤ H := by
  intro n
  induction n with
  | zero => intro h g hg1 hg2; omega
  | succ n ih =>
    intro h g hg1 hg2
    rw [searchLoop] at h
    split at h
    · rename_i hskip
      rcases Nat.lt_or_ge n g with hgn | hgn
      · have hgeq : g = n + 1 := by omega
        subst hgeq
        exact reject_of_maxHeight_lt m text W H (n+1) (by omega)
          (by exact_mod_cast hskip)
      · exact ih h g hg1 hgn
    · simp only [] at h
      split at h
      · exact absurd h (by simp)
      · rename_i hskip haccept
        rcases Nat.lt_or_ge n g with hgn | hgn
        · have hgeq : g = n + 1 := by omega
          subst hgeq
          exact fun hle => haccept (by exact_mod_cast hle)
        · exact ih h g hg1 hgn

/-- The precondition test of `getAdjustedFontAndLines` fails exactly when the
text is non-blank and both box dimensions are positive. -/
theorem fit_cond_neg (text : List Char) (W H : ℚ)
    (hblank : isBlank text = false) (hW : 0 < W) (hH : 0 < H) :
    ¬ (isBlank text = true ∨ W ≤ 0 ∨ H ≤ 0) := by
  push_neg
  exact ⟨by simp [hblank], hW, hH⟩

/-- When the search loop succeeds, `getAdjustedFontAndLines` returns exactly
the lines and line height accepted by the loop. -/
theorem fit_eq_of_search_some (m : ℕ → List Char → ℚ) (text : List Char)
    (W H : ℚ) (fs : ℕ) (L : List (List Char)) (lh : ℚ)
    (hblank : isBlank text = false) (hW : 0 < W) (hH : 0 < H)
    (hsearch : searchLoop m text W H (Int.toNat ⌊H⌋) = some (fs, L, lh)) :
    getAdjustedFontAndLines m text W H = ⟨L, lh⟩ := by
  rw [getAdjustedFontAndLines, if_neg (fit_cond_neg text W H hblank hW hH), hsearch]

/-- If the search loop fails because even the smallest size's line height
exceeds `maxHeight`, every run returns `none`. -/
theorem searchLoop_none_of_small (m : ℕ → List Char → ℚ) (text : List Char)
    (W H : ℚ) (hH : H < 7/5) : ∀ n, searchLoop m text W H n = none := by
  intro n
  induction n with
  | zero => simp [searchLoop]
  | succ n ih =>
    rw [searchLoop]
    have hlt : H < ((n + 1 : ℕ) : ℚ) * (7/5) := by
      have h1 : (1 : ℚ) ≤ ((n + 1 : ℕ) : ℚ) := by exact_mod_cast Nat.succ_le_succ (Nat.zero_le n)
      nlinarith
    rw [if_pos (by exact_mod_cast hlt)]
    exact ih

/-- A stub measurement assigning every character width 10 at every size. -/
def measureTen : ℕ → List Char → ℚ := fun _ s => (s.length : ℚ) * 10

/-- A stub measurement assigning every character width 100 at every size. -/
def measureHundred : ℕ → List Char → ℚ := fun _ s => (s.length : ℚ) * 100

/-- C2: when the fitter returns a non-fallback result for non-blank text in a
positive box, the result is the accepted `(lines, lineHeight)` pair, the
accepted font size is the largest candidate in the searched range
`⌊maxHeight⌋` down to 1 whose greedy wrap satisfies
`lines.length * lineHeight ≤ maxHeight` with `lineHeight = fontSize * 1.4`,
and in particular the returned result satisfies that height bound. -/
theorem fit_first_fit_from_largest (m : ℕ → List Char → ℚ) (text : List Char)
    (W H : ℚ) (fs : ℕ) (L : List (List Char)) (lh : ℚ)
    (hblank : isBlank text = false) (hW : 0 < W) (hH : 0 < H)
    (hsearch : searchLoop m text W H (Int.toNat ⌊H⌋) = some (fs, L, lh)) :
    getAdjustedFontAndLines m text W H = ⟨L, lh⟩ ∧
    lh = (fs : ℚ) * (7/5) ∧ L = wrapText m fs W text ∧
    1 ≤ fs ∧ fs ≤ Int.toNat ⌊H⌋ ∧
    (L.length : ℚ) * lh ≤ H ∧
    ∀ g, fs < g → g ≤ Int.toNat ⌊H⌋ →
      ¬ ((wrapText m g W text).length : ℚ) * ((g : ℚ) * (7/5)) ≤ H := by
  obtain ⟨h1, h2, h3, h4, h5, h6⟩ :=
    searchLoop_some_spec m text W H (Int.toNat ⌊H⌋) fs L lh hsearch
  exact ⟨fit_eq_of_search_some m text W H fs L lh hblank hW hH hsearch,
    h3, h4, h1, h2, h5, h6⟩

/-- Witness for C2 at a concrete input: with 10-wide characters, text "ab",
box 25 × 10, the loop accepts font size 7 (sizes 10, 9, 8 are skipped because
their line height exceeds 10) with one line and line height 49/5. -/
theorem fit_first_fit_from_largest_witness :
    getAdjustedFontAndLines measureTen ['a', 'b'] 25 10 = ⟨[['a', 'b']], 49/5⟩ ∧
    ¬ ((wrapText measureTen 8 25 ['a', 'b']).length : ℚ) * ((8 : ℚ) * (7/5)) ≤ 10 := by
  have hfloor : Int.toNat ⌊(10 : ℚ)⌋ = 10 := by decide
  have h := fit_first_fit_from_largest measureTen ['a', 'b'] 25 10 7 [['a', 'b']] (49/5)
    (by decide) (by norm_num) (by norm_num)
    (by rw [hfloor]; norm_num [searchLoop, wrapText, wrapLoop, measureTen, List.cons_ne_nil])
  refine ⟨h.1, ?_⟩
  have h8 := h.2.2.2.2.2.2 8 (by norm_num) (by rw [hfloor]; norm_num)
  exact_mod_cast h8

/-- C9: a non-fallback result on non-blank text restores the input exactly
when its lines are concatenated in order, and every returned line is
non-empty. -/
theorem fit_search_preserves_text (m : ℕ → List Char → ℚ) (text : List Char)
    (W H : ℚ) (fs : ℕ) (L : List (List Char)) (lh : ℚ)
    (hblank : isBlank text = false) (hW : 0 < W) (hH : 0 < H)
    (hsearch : searchLoop m text W H (Int.toNat ⌊H⌋) = some (fs, L, lh)) :
    (getAdjustedFontAndLines m text W H).lines.flatten = text ∧
    ∀ l ∈ (getAdjustedFontAndLines m text W H).lines, l ≠ [] := by
  have htext : text ≠ [] := by
    intro h
    rw [h] at hblank
    simp [isBlank] at hblank
  obtain ⟨_, _, _, hLwrap, _, _⟩ :=
    searchLoop_some_spec m text W H (Int.toNat ⌊H⌋) fs L lh hsearch
  rw [fit_eq_of_search_some m text W H fs L lh hblank hW hH hsearch]
  subst hLwrap
  constructor
  · simpa using wrapLoop_join m fs W text []
  · exact wrapLoop_mem_ne_nil m fs W text [] (fun _ => htext)

/-- Witness for C9 at a concrete input: text "abc" in a 25 × 4 box wraps at
font size 2 into lines "ab", "c", whose concatenation is "abc". -/
theorem fit_search_preserves_text_witness :
    (getAdjustedFontAndLines measureTen ['a', 'b', 'c'] 25 4).lines.flatten
      = ['a', 'b', 'c'] := by
  have hfloor : Int.toNat ⌊(4 : ℚ)⌋ = 4 := by decide
  have h := fit_search_preserves_text measureTen ['a', 'b', 'c'] 25 4 1
    [['a', 'b'], ['c']] (7/5) (by decide) (by norm_num) (by norm_num)
    (by rw [hfloor]; norm_num [searchLoop, wrapText, wrapLoop, measureTen, List.cons_ne_nil])
  exact h.1

/-- C5: on degenerate inputs — non-positive box dimensions, blank text, or a
box too short for even the minimum font size's line height — the fitter
returns exactly `{ lines: [], lineHeight: 0 }` (it never throws: the
embedding is a total function). -/
theorem fit_degenerate_empty (m : ℕ → List Char → ℚ) (text : List Char)
    (W H : ℚ) (h : W ≤ 0 ∨ H ≤ 0 ∨ isBlank text = true ∨ H < 7/5) :
    getAdjustedFontAndLines m text W H = ⟨[], 0⟩ := by
  by_cases hdeg : isBlank text = true ∨ W ≤ 0 ∨ H ≤ 0
  · rw [getAdjustedFontAndLines, if_pos hdeg]
  · have hsmall : H < 7/5 := by tauto
    rw [getAdjustedFontAndLines, if_neg hdeg,
      searchLoop_none_of_small m text W H hsmall (Int.toNat ⌊H⌋)]
    rw [fallbackResult]
    simp only []
    rw [if_pos hsmall]

/-- Witness for C5: a whitespace-only text, a zero width, and a height below
the minimum line height all map to the empty result. -/
theorem fit_degenerate_empty_witness :
    getAdjustedFontAndLines measureTen [' '] 10 10 = ⟨[], 0⟩ ∧
    getAdjustedFontAndLines measureTen ['a'] 0 10 = ⟨[], 0⟩ ∧
    getAdjustedFontAndLines measureTen ['a'] 10 1 = ⟨[], 0⟩ := by
  refine ⟨?_, ?_, ?_⟩
  · exact fit_degenerate_empty measureTen [' '] 10 10 (Or.inr (Or.inr (Or.inl (by decide))))
  · exact fit_degenerate_empty measureTen ['a'] 0 10 (Or.inl (by norm_num))
  · exact fit_degenerate_empty measureTen ['a'] 10 1
      (Or.inr (Or.inr (Or.inr (by norm_num))))

/-- The truncation fallback keeps the height bound whenever `maxHeight` is
non-negative: its line count never exceeds
`max 1 ⌊maxHeight / (1 * 1.4)⌋` whole lines. -/
theorem fallback_height_bound (m : ℕ → List Char → ℚ) (text : List Char)
    (W H : ℚ) (hH : 0 ≤ H) :
    ((fallbackResult m text W H).lines.length : ℚ) *
      (fallbackResult m text W H).lineHeight ≤ H := by
  rw [fallbackResult]
  simp only []
  by_cases hsmall : H < 7/5
  · rw [if_pos hsmall]
    simpa using hH
  · rw [if_neg hsmall]
    push_neg at hsmall
    have h75 : (0:ℚ) < 7/5 := by norm_num
    have hdiv1 : (1:ℚ) ≤ H / (7/5) := by
      rw [le_div_iff₀ h75]
      linarith
    have hfl1 : (1:ℤ) ≤ ⌊H / (7/5)⌋ := Int.le_floor.mpr (by exact_mod_cast hdiv1)
    have htn : (1:ℕ) ≤ Int.toNat ⌊H / (7/5)⌋ := by omega
    have hmax : max 1 (Int.toNat ⌊H / (7/5)⌋) = Int.toNat ⌊H / (7/5)⌋ :=
      max_eq_right htn
    have hcast : ((Int.toNat ⌊H / (7/5)⌋ : ℕ) : ℚ) ≤ H / (7/5) := by
      have h0 : (0:ℤ) ≤ ⌊H / (7/5)⌋ := by omega
      have : ((Int.toNat ⌊H / (7/5)⌋ : ℕ) : ℚ) = ((⌊H / (7/5)⌋ : ℤ) : ℚ) := by
        exact_mod_cast congrArg (fun z : ℤ => (z : ℚ)) (Int.toNat_of_nonneg h0)
      rw [this]
      exact Int.floor_le _
    have hml : ((Int.toNat ⌊H / (7/5)⌋ : ℕ) : ℚ) * (7/5) ≤ H :=
      (le_div_iff₀ h75).mp hcast
    have hbound : ∀ k : ℕ, k ≤ max 1 (Int.toNat ⌊H / (7/5)⌋) →
        (k : ℚ) * (7/5) ≤ H := by
      intro k hk
      rw [hmax] at hk
      have hkq : (k : ℚ) ≤ ((Int.toNat ⌊H / (7/5)⌋ : ℕ) : ℚ) := by exact_mod_cast hk
      nlinarith
    split
    · rename_i hc
      have hTne : (wrapText m 1 W text).take
          (max 1 (Int.toNat ⌊H / (7/5)⌋)) ≠ [] := hc.2
      have hTpos : 0 < ((wrapText m 1 W text).take
          (max 1 (Int.toNat ⌊H / (7/5)⌋))).length := List.length_pos.mpr hTne
      have hTle : ((wrapText m 1 W text).take
          (max 1 (Int.toNat ⌊H / (7/5)⌋))).length ≤
          max 1 (Int.toNat ⌊H / (7/5)⌋) := List.length_take_le _ _
      have hlen : (((wrapText m 1 W text).take
          (max 1 (Int.toNat ⌊H / (7/5)⌋))).dropLast ++
          [trimLastLine m W (((wrapText m 1 W text).take
            (max 1 (Int.toNat ⌊H / (7/5)⌋))).getLastD []) ++ [ellipsis]]).length ≤
          max 1 (Int.toNat ⌊H / (7/5)⌋) := by
        rw [List.length_append, List.length_dropLast]
        simp only [List.length_singleton]
        omega
      exact hbound _ hlen
    · have hTle : ((wrapText m 1 W text).take
          (max 1 (Int.toNat ⌊H / (7/5)⌋))).length ≤
          max 1 (Int.toNat ⌊H / (7/5)⌋) := List.length_take_le _ _
      exact hbound _ hTle

/-- C10 (amended): whenever `maxHeight ≥ 0`, the height bound
`lines.length * lineHeight ≤ maxHeight` holds on every return path of the
fitter, including the truncation fallback (which slices the wrapped lines to
`max 1 ⌊maxHeight / (minFontSize * 1.4)⌋` lines and is only reached when
`minFontSize * 1.4 ≤ maxHeight`). -/
theorem fit_height_bound (m : ℕ → List Char → ℚ) (text : List Char)
    (W H : ℚ) (hH : 0 ≤ H) :
    ((getAdjustedFontAndLines m text W H).lines.length : ℚ) *
      (getAdjustedFontAndLines m text W H).lineHeight ≤ H := by
  by_cases hdeg : isBlank text = true ∨ W ≤ 0 ∨ H ≤ 0
  · rw [getAdjustedFontAndLines, if_pos hdeg]
    simpa using hH
  · rw [getAdjustedFontAndLines, if_neg hdeg]
    cases hsearch : searchLoop m text W H (Int.toNat ⌊H⌋) with
    | none =>
      simp only []
      exact fallback_height_bound m text W H hH
    | some v =>
      obtain ⟨fs, L, lh⟩ := v
      obtain ⟨_, _, _, _, h5, _⟩ :=
        searchLoop_some_spec m text W H (Int.toNat ⌊H⌋) fs L lh hsearch
      simpa using h5

/-- Counterexample to C10 as stated: at `maxHeight = -1` the fitter returns
`{ lines: [], lineHeight: 0 }`, and `0 * 0 ≤ -1` fails, so the height bound
does not hold on that return path. -/
theorem fit_height_bound_cex :
    ¬ (((getAdjustedFontAndLines measureTen ['a'] 10 (-1)).lines.length : ℚ) *
      (getAdjustedFontAndLines measureTen ['a'] 10 (-1)).lineHeight ≤ (-1 : ℚ)) := by
  have h : getAdjustedFontAndLines measureTen ['a'] 10 (-1) = ⟨[], 0⟩ := by
    rw [getAdjustedFontAndLines, if_pos (Or.inr (Or.inr (by norm_num)))]
  rw [h]
  norm_num

/-- Witness for C10 (amended) at a concrete input with non-negative height. -/
theorem fit_height_bound_witness :
    ((getAdjustedFontAndLines measureTen ['a'] 10 10).lines.length : ℚ) *
      (getAdjustedFontAndLines measureTen ['a'] 10 10).lineHeight ≤ 10 :=
  fit_height_bound measureTen ['a'] 10 10 (by norm_num)

/-- The trimming loop of the truncation fallback ends either with a trimmed
line that fits together with the ellipsis, or with the empty line. -/
theorem trimLastLine_spec (m : ℕ → List Char → ℚ) (W : ℚ) :
    ∀ line, m 1 (trimLastLine m W line ++ [ellipsis]) ≤ W ∨
      trimLastLine m W line = [] := by
  have key : ∀ n (line : List Char), line.length ≤ n →
      (m 1 (trimLastLine m W line ++ [ellipsis]) ≤ W ∨
        trimLastLine m W line = []) := by
    intro n
    induction n with
    | zero =>
      intro line hlen
      have hnil : line = [] := List.length_eq_zero.mp (Nat.le_zero.mp hlen)
      subst hnil
      rw [trimLastLine]
      simp
    | succ n ih =>
      intro line hlen
      rw [trimLastLine]
      split
      · rename_i hc
        apply ih
        have hne : line ≠ [] := hc.2
        have hpos : 0 < line.length := List.length_pos.mpr hne
        rw [List.length_dropLast]
        omega
      · rename_i hc
        rcases not_and_or.mp hc with h | h
        · exact Or.inl (le_of_not_lt h)
        · exact Or.inr (not_not.mp h)
  exact fun line => key line.length line (le_refl _)

/-- Every line of the truncation fallback's result is a single character or
measures at most `maxWidth` at the fallback font size 1 (the only line that
can overflow is a bare single character, including the bare ellipsis). -/
theorem fallback_mem_width (m : ℕ → List Char → ℚ) (text : List Char)
    (W H : ℚ) (htext : text ≠ []) (l : List Char)
    (hl : l ∈ (fallbackResult m text W H).lines) :
    l.length = 1 ∨ m 1 l ≤ W := by
  rw [fallbackResult] at hl
  simp only [] at hl
  by_cases hsmall : H < 7/5
  · rw [if_pos hsmall] at hl
    simp at hl
  · rw [if_neg hsmall] at hl
    have hwrap : ∀ l0 ∈ wrapText m 1 W text, l0.length = 1 ∨ m 1 l0 ≤ W :=
      wrapLoop_mem_width m 1 W text [] (fun _ => htext) (fun h => absurd rfl h)
    split at hl
    · rename_i hc
      rcases List.mem_append.mp hl with h | h
      · exact hwrap l (List.take_subset _ _ (List.dropLast_subset _ h))
      · have heq : l = trimLastLine m W (((wrapText m 1 W text).take
            (max 1 (Int.toNat ⌊H / (7/5)⌋))).getLastD []) ++ [ellipsis] := by
          simpa using h
        rcases trimLastLine_spec m W (((wrapText m 1 W text).take
            (max 1 (Int.toNat ⌊H / (7/5)⌋))).getLastD []) with hle | hnil
        · exact Or.inr (heq ▸ hle)
        · left
          rw [heq, hnil]
          rfl
    · exact hwrap l (List.take_subset _ _ hl)

/-- C1 (amended): every line of any result of the fitter either measures at
most `maxWidth` at the chosen font size, or is a single character (a single
character wider than `maxWidth` is placed on a line of its own; in the
truncation fallback the bare ellipsis plays that role). -/
theorem fit_width_bound (m : ℕ → List Char → ℚ) (text : List Char)
    (W H : ℚ) (l : List Char)
    (hl : l ∈ (getAdjustedFontAndLines m text W H).lines) :
    l.length = 1 ∨ m (chosenFontSize m text W H) l ≤ W := by
  by_cases hdeg : isBlank text = true ∨ W ≤ 0 ∨ H ≤ 0
  · rw [getAdjustedFontAndLines, if_pos hdeg] at hl
    simp at hl
  · have htext : text ≠ [] := by
      intro h
      exact hdeg (Or.inl (by rw [h]; rfl))
    rw [getAdjustedFontAndLines, if_neg hdeg] at hl
    rw [chosenFontSize, if_neg hdeg]
    cases hsearch : searchLoop m text W H (Int.toNat ⌊H⌋) with
    | none =>
      rw [hsearch] at hl
      simp only [] at hl ⊢
      by_cases hsmall : H < 7/5
      · exfalso
        rw [fallbackResult] at hl
        simp only [] at hl
        rw [if_pos hsmall] at hl
        simp at hl
      · rw [if_neg hsmall]
        exact fallback_mem_width m text W H htext l hl
    | some v =>
      obtain ⟨fs, L, lh⟩ := v
      obtain ⟨_, _, _, hLwrap, _, _⟩ :=
        searchLoop_some_spec m text W H (Int.toNat ⌊H⌋) fs L lh hsearch
      rw [hsearch] at hl
      simp only [] at hl ⊢
      subst hLwrap
      exact wrapLoop_mem_width m fs W text [] (fun _ => htext)
        (fun h => absurd rfl h) l hl

/-- Counterexample to C1 as stated: with 100-wide characters, text "a" and a
25 × 10 box the fitter accepts font size 7 and returns the single line "a",
whose measured width 100 exceeds `maxWidth = 50`. -/
theorem fit_width_bound_cex :
    (getAdjustedFontAndLines measureHundred ['a'] 50 10).lines = [['a']] ∧
    (50 : ℚ) < measureHundred (chosenFontSize measureHundred ['a'] 50 10) ['a'] := by
  have hfloor : Int.toNat ⌊(10 : ℚ)⌋ = 10 := by decide
  have hsearch : searchLoop measureHundred ['a'] 50 10 (Int.toNat ⌊(10:ℚ)⌋) =
      some (7, [['a']], 49/5) := by
    rw [hfloor]
    norm_num [searchLoop, wrapText, wrapLoop, measureHundred, List.cons_ne_nil]
  constructor
  · rw [fit_eq_of_search_some measureHundred ['a'] 50 10 7 [['a']] (49/5)
      (by decide) (by norm_num) (by norm_num) hsearch]
  · rw [chosenFontSize, if_neg (fit_cond_neg ['a'] 50 10 (by decide)
      (by norm_num) (by norm_num)), hsearch]
    norm_num [measureHundred]

/-- Witness for C1 (amended) at a concrete input: the returned line "ab"
of the 25 × 10 fit measures at most 25 at the chosen size. -/
theorem fit_width_bound_witness :
    ['a', 'b'].length = 1 ∨
      measureTen (chosenFontSize measureTen ['a', 'b'] 25 10) ['a', 'b'] ≤ 25 := by
  have hfloor : Int.toNat ⌊(10 : ℚ)⌋ = 10 := by decide
  have hsearch : searchLoop measureTen ['a', 'b'] 25 10 (Int.toNat ⌊(10:ℚ)⌋) =
      some (7, [['a', 'b']], 49/5) := by
    rw [hfloor]
    norm_num [searchLoop, wrapText, wrapLoop, measureTen, List.cons_ne_nil]
  exact fit_width_bound measureTen ['a', 'b'] 25 10 ['a', 'b']
    (by rw [fit_eq_of_search_some measureTen ['a', 'b'] 25 10 7 [['a', 'b']] (49/5)
      (by decide) (by norm_num) (by norm_num) hsearch]; simp)

/-- C6: the compositor's display copy rewrites index 7 to the localized
date form exactly when the stored string matches `^\d{4}-\d{2}-\d{2}$`,
and every other index of the display copy equals the caller's entry (the
caller's list itself is untouched: the rewrite happens on the copy). -/
theorem textsToDraw_date_rewrite (texts : List String) :
    (textsToDraw texts)[7]? = texts[7]?.map
      (fun t => if matchesIsoDate t then formatLocalizedDate t else t) ∧
    ∀ i, i ≠ 7 → (textsToDraw texts)[i]? = texts[i]? := by
  constructor
  · rw [textsToDraw]
    cases h7 : texts[7]? with
    | none =>
      simp
      simpa using h7
    | some t =>
      simp only []
      by_cases hm : matchesIsoDate t = true
      · have hne : t ≠ "" := by
          intro h
          rw [h] at hm
          simp [matchesIsoDate, String.toList] at hm
        rw [if_pos ⟨hne, hm⟩]
        have hlt : 7 < texts.length := by
          rcases List.getElem?_eq_some_iff.mp h7 with ⟨h, _⟩
          exact h
        simp [List.getElem?_set_self hlt, hm]
      · rw [if_neg (by tauto)]
        simp [h7, hm]
  · intro i hi
    rw [textsToDraw]
    cases h7 : texts[7]? with
    | none => rfl
    | some t =>
      simp only []
      split
      · exact List.getElem?_set_ne (by omega)
      · rfl

/-- Witness for C6: "2024-03-05" is displayed as "2024年03月05日",
"not-a-date" is displayed unchanged, and other indices are unaffected. -/
theorem textsToDraw_date_rewrite_witness :
    (textsToDraw ["設備", "", "", "", "", "", "", "2024-03-05", "", ""])[7]? =
      some "2024年03月05日" ∧
    (textsToDraw ["設備", "", "", "", "", "", "", "not-a-date", "", ""])[7]? =
      some "not-a-date" ∧
    (textsToDraw ["設備", "", "", "", "", "", "", "2024-03-05", "", ""])[0]? =
      some "設備" := by
  have h1 := textsToDraw_date_rewrite ["設備", "", "", "", "", "", "", "2024-03-05", "", ""]
  have h2 := textsToDraw_date_rewrite ["設備", "", "", "", "", "", "", "not-a-date", "", ""]
  refine ⟨?_, ?_, ?_⟩
  · rw [h1.1]; decide
  · rw [h2.1]; decide
  · rw [h1.2 0 (by omega)]
    decide

/-- C7: for positive board dimensions the grid geometry is exact: the grid
is the board minus twice the border padding on each axis, the two column
widths sum to the grid width in exact ratio 3 : 7, and five cell heights
make up the grid height. -/
theorem grid_geometry (boardWidth boardHeight : ℚ)
    (hW : 0 < boardWidth) (hH : 0 < boardHeight) :
    gridWidth boardWidth = boardWidth - 2 * borderPadding boardWidth ∧
    gridHeight boardWidth boardHeight =
      boardHeight - 2 * borderPadding boardWidth ∧
    (colWidths boardWidth).getD 0 0 = (3/10) * gridWidth boardWidth ∧
    (colWidths boardWidth).getD 1 0 = (7/10) * gridWidth boardWidth ∧
    (colWidths boardWidth).getD 0 0 + (colWidths boardWidth).getD 1 0 =
      gridWidth boardWidth ∧
    7 * (colWidths boardWidth).getD 0 0 =
      3 * (colWidths boardWidth).getD 1 0 ∧
    cellHeight boardWidth boardHeight * 5 =
      gridHeight boardWidth boardHeight := by
  refine ⟨?_, ?_, ?_, ?_, ?_, ?_, ?_⟩ <;>
    simp [gridWidth, gridHeight, colWidths, cellHeight, borderPadding,
      NUM_ROWS] <;> ring

/-- Witness for C7 at `boardWidth = 1000`, `boardHeight = 800`. -/
theorem grid_geometry_witness :
    (colWidths 1000).getD 0 0 + (colWidths 1000).getD 1 0 = gridWidth 1000 ∧
    7 * (colWidths 1000).getD 0 0 = 3 * (colWidths 1000).getD 1 0 ∧
    cellHeight 1000 800 * 5 = gridHeight 1000 800 := by
  have h := grid_geometry 1000 800 (by norm_num) (by norm_num)
  exact ⟨h.2.2.2.2.1, h.2.2.2.2.2.1, h.2.2.2.2.2.2⟩

/-- C8: paddings are the fixed fractions 0.025 and 0.015 of `boardWidth`,
and scaling both board dimensions by the same positive factor scales every
layout quantity by that factor, leaving all proportions (column-width
ratio, border-padding-to-board-width ratio, cell boxes relative to the
board) unchanged. -/
theorem grid_scale_invariance (boardWidth boardHeight k : ℚ)
    (hk : 0 < k) (hW : 0 < boardWidth) :
    borderPadding boardWidth = boardWidth * (25/1000) ∧
    textPadding boardWidth = boardWidth * (15/1000) ∧
    borderPadding (k * boardWidth) = k * borderPadding boardWidth ∧
    textPadding (k * boardWidth) = k * textPadding boardWidth ∧
    (colWidths (k * boardWidth)).getD 0 0 =
      k * (colWidths boardWidth).getD 0 0 ∧
    (colWidths (k * boardWidth)).getD 1 0 =
      k * (colWidths boardWidth).getD 1 0 ∧
    cellHeight (k * boardWidth) (k * boardHeight) =
      k * cellHeight boardWidth boardHeight ∧
    (∀ col, effectiveCellWidth (k * boardWidth) col =
      k * effectiveCellWidth boardWidth col) ∧
    effectiveCellHeight (k * boardWidth) (k * boardHeight) =
      k * effectiveCellHeight boardWidth boardHeight ∧
    (∀ col, cellLeftX (k * boardWidth) col = k * cellLeftX boardWidth col) ∧
    (∀ row, cellTopY (k * boardWidth) (k * boardHeight) row =
      k * cellTopY boardWidth boardHeight row) ∧
    borderPadding (k * boardWidth) / (k * boardWidth) =
      borderPadding boardWidth / boardWidth ∧
    (colWidths (k * boardWidth)).getD 0 0 /
        (colWidths (k * boardWidth)).getD 1 0 =
      (colWidths boardWidth).getD 0 0 / (colWidths boardWidth).getD 1 0 := by
  have hk0 : k ≠ 0 := ne_of_gt hk
  refine ⟨rfl, rfl, ?_, ?_, ?_, ?_, ?_, ?_, ?_, ?_, ?_, ?_, ?_⟩
  · simp [borderPadding]; ring
  · simp [textPadding]; ring
  · simp [colWidths, gridWidth, borderPadding]; ring
  · simp [colWidths, gridWidth, borderPadding]; ring
  · simp [cellHeight, gridHeight, gridWidth, borderPadding, NUM_ROWS]; ring
  · intro col
    rcases col with _ | _ | col <;>
      simp [effectiveCellWidth, colWidths, gridWidth, borderPadding,
        textPadding] <;> ring
  · simp [effectiveCellHeight, cellHeight, gridHeight, borderPadding,
      textPadding, NUM_ROWS]; ring
  · intro col
    rcases col with _ | col <;>
      simp [cellLeftX, colWidths, gridWidth, borderPadding] <;> ring
  · intro row
    simp [cellTopY, cellHeight, gridHeight, borderPadding, NUM_ROWS]; ring
  · rw [borderPadding, borderPadding, mul_assoc,
      mul_div_mul_left _ _ hk0]
  · rw [show (colWidths (k * boardWidth)).getD 0 0 =
        k * (colWidths boardWidth).getD 0 0 by
        simp [colWidths, gridWidth, borderPadding]; ring,
      show (colWidths (k * boardWidth)).getD 1 0 =
        k * (colWidths boardWidth).getD 1 0 by
        simp [colWidths, gridWidth, borderPadding]; ring,
      mul_div_mul_left _ _ hk0]

/-- Witness for C8: doubling a 1000 × 800 board keeps the padding ratio and
the column-width ratio. -/
theorem grid_scale_invariance_witness :
    borderPadding (2 * 1000) / (2 * 1000) = borderPadding 1000 / 1000 ∧
    (colWidths (2 * 1000)).getD 0 0 / (colWidths (2 * 1000)).getD 1 0 =
      (colWidths 1000).getD 0 0 / (colWidths 1000).getD 1 0 := by
  have h := grid_scale_invariance 1000 800 2 (by norm_num) (by norm_num)
  exact ⟨h.2.2.2.2.2.2.2.2.2.2.2.1, h.2.2.2.2.2.2.2.2.2.2.2.2⟩

/-- C4 (amended): when no searched size fits, the fallback wraps at the
minimum font size 1, keeps exactly the maximal number of whole lines that
fit in `maxHeight` whenever lines are dropped, and the returned last line is
the trimmed text followed by an ellipsis; its measured width is at most
`maxWidth` provided the ellipsis alone fits (when even the bare ellipsis
overflows, the last line is exactly the ellipsis character). -/
theorem fit_truncation_spec (m : ℕ → List Char → ℚ) (text : List Char)
    (W H : ℚ) (hblank : isBlank text = false) (hW : 0 < W) (hH : 0 < H)
    (hsearch : searchLoop m text W H (Int.toNat ⌊H⌋) = none)
    (hsmall : (7/5 : ℚ) ≤ H)
    (hdrop : max 1 (Int.toNat ⌊H / (7/5)⌋) < (wrapText m 1 W text).length)
    (hell : m 1 [ellipsis] ≤ W) :
    (getAdjustedFontAndLines m text W H).lineHeight = 7/5 ∧
    (getAdjustedFontAndLines m text W H).lines.length =
      max 1 (Int.toNat ⌊H / (7/5)⌋) ∧
    (getAdjustedFontAndLines m text W H).lines =
      ((wrapText m 1 W text).take (max 1 (Int.toNat ⌊H / (7/5)⌋))).dropLast ++
        [trimLastLine m W (((wrapText m 1 W text).take
          (max 1 (Int.toNat ⌊H / (7/5)⌋))).getLastD []) ++ [ellipsis]] ∧
    ((getAdjustedFontAndLines m text W H).lines.getLastD []).getLast? =
      some ellipsis ∧
    m 1 ((getAdjustedFontAndLines m text W H).lines.getLastD []) ≤ W := by
  have hwrappos : 0 < (wrapText m 1 W text).length :=
    wrapLoop_length_pos m 1 W text []
  have hTlen : ((wrapText m 1 W text).take
      (max 1 (Int.toNat ⌊H / (7/5)⌋))).length =
      max 1 (Int.toNat ⌊H / (7/5)⌋) := by
    rw [List.length_take]
    omega
  have hTne : (wrapText m 1 W text).take
      (max 1 (Int.toNat ⌊H / (7/5)⌋)) ≠ [] := by
    intro h
    rw [h] at hTlen
    simp at hTlen
    omega
  have hfb : getAdjustedFontAndLines m text W H = fallbackResult m text W H := by
    rw [getAdjustedFontAndLines, if_neg (fit_cond_neg text W H hblank hW hH),
      hsearch]
  have hfb2 : fallbackResult m text W H =
      ⟨((wrapText m 1 W text).take (max 1 (Int.toNat ⌊H / (7/5)⌋))).dropLast ++
        [trimLastLine m W (((wrapText m 1 W text).take
          (max 1 (Int.toNat ⌊H / (7/5)⌋))).getLastD []) ++ [ellipsis]],
       7/5⟩ := by
    rw [fallbackResult]
    simp only []
    rw [if_neg (not_lt.mpr hsmall), if_pos ⟨hdrop, hTne⟩]
  have hL : (getAdjustedFontAndLines m text W H).lines =
      ((wrapText m 1 W text).take (max 1 (Int.toNat ⌊H / (7/5)⌋))).dropLast ++
        [trimLastLine m W (((wrapText m 1 W text).take
          (max 1 (Int.toNat ⌊H / (7/5)⌋))).getLastD []) ++ [ellipsis]] := by
    rw [hfb, hfb2]
  have hLH : (getAdjustedFontAndLines m text W H).lineHeight = 7/5 := by
    rw [hfb, hfb2]
  refine ⟨hLH, ?_, hL, ?_, ?_⟩
  · rw [hL, List.length_append, List.length_dropLast]
    simp only [List.length_singleton]
    omega
  · rw [hL, List.getLastD_concat]
    exact List.getLast?_concat _
  · rw [hL, List.getLastD_concat]
    rcases trimLastLine_spec m W (((wrapText m 1 W text).take
        (max 1 (Int.toNat ⌊H / (7/5)⌋))).getLastD []) with hle | hnil
    · exact hle
    · rw [hnil]
      simpa using hell

/-- Counterexample to C4 as stated: with 100-wide characters (including the
ellipsis), text "ab" in a 50 × 2 box reaches the truncation fallback, drops
a line, and returns the last line "…" whose measured width 100 exceeds
`maxWidth = 50`. -/
theorem fit_truncation_spec_cex :
    searchLoop measureHundred ['a', 'b'] 50 2 (Int.toNat ⌊(2:ℚ)⌋) = none ∧
    max 1 (Int.toNat ⌊(2:ℚ) / (7/5)⌋) <
      (wrapText measureHundred 1 50 ['a', 'b']).length ∧
    (getAdjustedFontAndLines measureHundred ['a', 'b'] 50 2).lines =
      [[ellipsis]] ∧
    (50 : ℚ) < measureHundred 1 [ellipsis] := by
  have hfloor : Int.toNat ⌊(2 : ℚ)⌋ = 2 := by decide
  have hwrap : wrapText measureHundred 1 50 ['a', 'b'] = [['a'], ['b']] := by
    norm_num [wrapText, wrapLoop, measureHundred, List.cons_ne_nil]
  have hsearch : searchLoop measureHundred ['a', 'b'] 50 2 (Int.toNat ⌊(2:ℚ)⌋)
      = none := by
    rw [hfloor]
    norm_num [searchLoop, wrapText, wrapLoop, measureHundred, List.cons_ne_nil]
  have hml : max 1 (Int.toNat ⌊(2 : ℚ) / (7/5)⌋) = 1 := by norm_num
  refine ⟨hsearch, ?_, ?_, ?_⟩
  · rw [hml, hwrap]
    norm_num
  · rw [getAdjustedFontAndLines,
      if_neg (fit_cond_neg ['a', 'b'] 50 2 (by decide) (by norm_num) (by norm_num)),
      hsearch, fallbackResult]
    simp only []
    rw [if_neg (by norm_num), hml, hwrap]
    have htrim : trimLastLine measureHundred 50 ['a'] = [] := by
      rw [trimLastLine,
        if_pos ⟨by norm_num [measureHundred], by simp⟩]
      show trimLastLine measureHundred 50 [] = []
      rw [trimLastLine]
      simp
    rw [if_pos (by simp)]
    simp [htrim]
  · norm_num [measureHundred]

/-- Witness for C4 (amended): 10-wide characters, text of eight characters
in a 25 × 2.8 box; the fallback keeps 2 of the 4 wrapped lines and the last
returned line is "a…" of width 20 ≤ 25. -/
theorem fit_truncation_spec_witness :
    (getAdjustedFontAndLines measureTen
      ['a','a','a','a','a','a','a','a'] 25 (14/5)).lines.length =
      max 1 (Int.toNat ⌊(14/5 : ℚ) / (7/5)⌋) ∧
    ((getAdjustedFontAndLines measureTen
      ['a','a','a','a','a','a','a','a'] 25 (14/5)).lines.getLastD []).getLast? =
      some ellipsis ∧
    measureTen 1 ((getAdjustedFontAndLines measureTen
      ['a','a','a','a','a','a','a','a'] 25 (14/5)).lines.getLastD []) ≤ 25 := by
  have hfloor : Int.toNat ⌊(14/5 : ℚ)⌋ = 2 := by
    rw [show ⌊(14/5 : ℚ)⌋ = 2 by norm_num]
    rfl
  have hwrap : wrapText measureTen 25 25 ['a','a','a','a','a','a','a','a'] =
      [['a','a'], ['a','a'], ['a','a'], ['a','a']] := by
    norm_num [wrapText, wrapLoop, measureTen, List.cons_ne_nil]
  have h := fit_truncation_spec measureTen ['a','a','a','a','a','a','a','a']
    25 (14/5) (by decide) (by norm_num) (by norm_num)
    (by rw [hfloor]
        norm_num [searchLoop, wrapText, wrapLoop, measureTen, List.cons_ne_nil])
    (by norm_num)
    (by norm_num [wrapText, wrapLoop, measureTen, List.cons_ne_nil])
    (by norm_num [measureTen])
  exact ⟨h.2.1, h.2.2.2.1, h.2.2.2.2⟩

/-- An additive measurement: the width of a string is the sum of per-character
advance widths (the natural model of canvas text measurement). -/
def additiveMeasure (w : ℕ → Char → ℚ) : ℕ → List Char → ℚ :=
  fun fontSize s => (s.map (w fontSize)).sum

theorem additiveMeasure_append (w : ℕ → Char → ℚ) (fs : ℕ)
    (l1 l2 : List Char) :
    additiveMeasure w fs (l1 ++ l2) =
      additiveMeasure w fs l1 + additiveMeasure w fs l2 := by
  simp [additiveMeasure]

theorem additiveMeasure_nonneg (w : ℕ → Char → ℚ)
    (hw : ∀ fs c, 0 ≤ w fs c) (fs : ℕ) (l : List Char) :
    0 ≤ additiveMeasure w fs l := by
  apply List.sum_nonneg
  intro x hx
  rcases List.mem_map.mp hx with ⟨c, _, rfl⟩
  exact hw fs c

/-- Monotonicity of the greedy wrap's line count in `maxWidth` for additive
non-negative measures.  The first component compares runs at the same
position whose current-line widths are related; the second bounds the wider
run by the narrower run plus one line. -/
theorem wrap_count_mono_aux (w : ℕ → Char → ℚ) (hw : ∀ fs c, 0 ≤ w fs c)
    (fs : ℕ) (W1 W2 : ℚ) (hW : W1 ≤ W2) :
    ∀ rest : List Char,
      (∀ cur1 cur2 : List Char,
        additiveMeasure w fs cur2 ≤ additiveMeasure w fs cur1 →
        (cur2 ≠ [] → cur1 ≠ []) →
        (wrapLoop (additiveMeasure w) fs W2 rest cur2).length ≤
          (wrapLoop (additiveMeasure w) fs W1 rest cur1).length) ∧
      (∀ cur1 cur2 : List Char,
        (wrapLoop (additiveMeasure w) fs W2 rest cur2).length ≤
          (wrapLoop (additiveMeasure w) fs W1 rest cur1).length + 1) := by
  intro rest
  induction rest with
  | nil =>
    constructor
    · intro cur1 cur2 _ _
      simp [wrapLoop]
    · intro cur1 cur2
      simp [wrapLoop]
  | cons c r ih =>
    obtain ⟨ihA, ihB⟩ := ih
    constructor
    · intro cur1 cur2 hsum hemp
      rw [wrapLoop, wrapLoop]
      by_cases h2 : W2 < additiveMeasure w fs (cur2 ++ [c]) ∧ cur2 ≠ []
      · have h1 : W1 < additiveMeasure w fs (cur1 ++ [c]) ∧ cur1 ≠ [] := by
          refine ⟨?_, hemp h2.2⟩
          have hm : additiveMeasure w fs (cur2 ++ [c]) ≤
              additiveMeasure w fs (cur1 ++ [c]) := by
            rw [additiveMeasure_append, additiveMeasure_append]
            linarith
          linarith [h2.1]
        rw [if_pos h2, if_pos h1]
        simp only [List.length_cons, Nat.add_le_add_iff_right]
        exact ihA [c] [c] (le_refl _) (fun h => h)
      · rw [if_neg h2]
        by_cases h1 : W1 < additiveMeasure w fs (cur1 ++ [c]) ∧ cur1 ≠ []
        · rw [if_pos h1]
          simp only [List.length_cons]
          have hb := ihB [c] (cur2 ++ [c])
          omega
        · rw [if_neg h1]
          apply ihA
          · rw [additiveMeasure_append, additiveMeasure_append]
            linarith
          · intro _
            simp
    · intro cur1 cur2
      rw [wrapLoop, wrapLoop]
      by_cases h1 : W1 < additiveMeasure w fs (cur1 ++ [c]) ∧ cur1 ≠ []
      · rw [if_pos h1]
        by_cases h2 : W2 < additiveMeasure w fs (cur2 ++ [c]) ∧ cur2 ≠ []
        · rw [if_pos h2]
          simp only [List.length_cons]
          have ha := ihA [c] [c] (le_refl _) (fun h => h)
          omega
        · rw [if_neg h2]
          simp only [List.length_cons]
          have hb := ihB [c] (cur2 ++ [c])
          omega
      · rw [if_neg h1]
        by_cases h2 : W2 < additiveMeasure w fs (cur2 ++ [c]) ∧ cur2 ≠ []
        · rw [if_pos h2]
          simp only [List.length_cons]
          have hs : additiveMeasure w fs [c] ≤
              additiveMeasure w fs (cur1 ++ [c]) := by
            rw [additiveMeasure_append]
            have h0 := additiveMeasure_nonneg w hw fs cur1
            linarith
          have ha := ihA (cur1 ++ [c]) [c] hs (fun _ => by simp)
          omega
        · rw [if_neg h2]
          exact ihB (cur1 ++ [c]) (cur2 ++ [c])

/-- Widening the box never increases the greedy wrap's line count, for
additive non-negative measures. -/
theorem wrapText_count_mono (w : ℕ → Char → ℚ) (hw : ∀ fs c, 0 ≤ w fs c)
    (fs : ℕ) (W1 W2 : ℚ) (hW : W1 ≤ W2) (text : List Char) :
    (wrapText (additiveMeasure w) fs W2 text).length ≤
      (wrapText (additiveMeasure w) fs W1 text).length :=
  (wrap_count_mono_aux w hw fs W1 W2 hW text).1 [] [] (le_refl _) (fun h => h)

/-- If some candidate size in range passes the acceptance test, the search
loop succeeds with a size at least as large. -/
theorem searchLoop_ge_of_valid (m : ℕ → List Char → ℚ) (text : List Char)
    (W H : ℚ) (n g : ℕ) (hg1 : 1 ≤ g) (hgn : g ≤ n)
    (hP : ((wrapText m g W text).length : ℚ) * ((g : ℚ) * (7/5)) ≤ H) :
    ∃ fs L lh, searchLoop m text W H n = some (fs, L, lh) ∧ g ≤ fs := by
  cases hs : searchLoop m text W H n with
  | none => exact absurd hP (searchLoop_none_spec m text W H n hs g hg1 hgn)
  | some v =>
    obtain ⟨fs, L, lh⟩ := v
    refine ⟨fs, L, lh, rfl, ?_⟩
    by_contra hcon
    push_neg at hcon
    obtain ⟨_, _, _, _, _, hmax⟩ :=
      searchLoop_some_spec m text W H n fs L lh hs
    exact hmax g hcon hgn hP

/-- Monotonicity of the chosen font size in `maxHeight`, for every
measurement function. -/
theorem chosen_mono_height (m : ℕ → List Char → ℚ) (text : List Char)
    (W H1 H2 : ℚ) (hH : H1 ≤ H2) :
    chosenFontSize m text W H1 ≤ chosenFontSize m text W H2 := by
  rw [chosenFontSize, chosenFontSize]
  by_cases hdeg1 : isBlank text = true ∨ W ≤ 0 ∨ H1 ≤ 0
  · rw [if_pos hdeg1]
    exact Nat.zero_le _
  · have hdeg2 : ¬ (isBlank text = true ∨ W ≤ 0 ∨ H2 ≤ 0) := by
      push_neg at hdeg1 ⊢
      exact ⟨hdeg1.1, hdeg1.2.1, by linarith [hdeg1.2.2]⟩
    rw [if_neg hdeg1, if_neg hdeg2]
    have hn12 : Int.toNat ⌊H1⌋ ≤ Int.toNat ⌊H2⌋ := by
      have hff : ⌊H1⌋ ≤ ⌊H2⌋ := Int.floor_le_floor hH
      omega
    cases hs1 : searchLoop m text W H1 (Int.toNat ⌊H1⌋) with
    | none =>
      cases hs2 : searchLoop m text W H2 (Int.toNat ⌊H2⌋) with
      | none =>
        by_cases hsm : H1 < 7/5
        · rw [if_pos hsm]
          exact Nat.zero_le _
        · rw [if_neg hsm, if_neg (by push_neg at hsm ⊢; linarith)]
      | some v =>
        obtain ⟨fs, L, lh⟩ := v
        obtain ⟨h1, _, _, _, _, _⟩ :=
          searchLoop_some_spec m text W H2 (Int.toNat ⌊H2⌋) fs L lh hs2
        simp only []
        split
        · exact Nat.zero_le _
        · exact h1
    | some v =>
      obtain ⟨fs, L, lh⟩ := v
      obtain ⟨hfs1, hfsn, hlh, hLw, hP, _⟩ :=
        searchLoop_some_spec m text W H1 (Int.toNat ⌊H1⌋) fs L lh hs1
      rw [hLw, hlh] at hP
      obtain ⟨fs2, L2, lh2, hs2, hge⟩ :=
        searchLoop_ge_of_valid m text W H2 (Int.toNat ⌊H2⌋) fs hfs1
          (le_trans hfsn hn12) (le_trans hP hH)
      rw [hs2]
      exact hge

/-- Monotonicity of the chosen font size in `maxWidth`, for additive
non-negative measures. -/
theorem chosen_mono_width (w : ℕ → Char → ℚ) (hw : ∀ fs c, 0 ≤ w fs c)
    (text : List Char) (W1 W2 H : ℚ) (hW : W1 ≤ W2) :
    chosenFontSize (additiveMeasure w) text W1 H ≤
      chosenFontSize (additiveMeasure w) text W2 H := by
  rw [chosenFontSize, chosenFontSize]
  by_cases hdeg1 : isBlank text = true ∨ W1 ≤ 0 ∨ H ≤ 0
  · rw [if_pos hdeg1]
    exact Nat.zero_le _
  · have hdeg2 : ¬ (isBlank text = true ∨ W2 ≤ 0 ∨ H ≤ 0) := by
      push_neg at hdeg1 ⊢
      exact ⟨hdeg1.1, by linarith [hdeg1.2.1], hdeg1.2.2⟩
    rw [if_neg hdeg1, if_neg hdeg2]
    cases hs1 : searchLoop (additiveMeasure w) text W1 H (Int.toNat ⌊H⌋) with
    | none =>
      cases hs2 : searchLoop (additiveMeasure w) text W2 H (Int.toNat ⌊H⌋) with
      | none => exact le_refl _
      | some v =>
        obtain ⟨fs, L, lh⟩ := v
        obtain ⟨h1, _, _, _, _, _⟩ :=
          searchLoop_some_spec (additiveMeasure w) text W2 H
            (Int.toNat ⌊H⌋) fs L lh hs2
        simp only []
        split
        · exact Nat.zero_le _
        · exact h1
    | some v =>
      obtain ⟨fs, L, lh⟩ := v
      obtain ⟨hfs1, hfsn, hlh, hLw, hP, _⟩ :=
        searchLoop_some_spec (additiveMeasure w) text W1 H
          (Int.toNat ⌊H⌋) fs L lh hs1
      rw [hLw, hlh] at hP
      have hcnt : ((wrapText (additiveMeasure w) fs W2 text).length : ℚ) ≤
          ((wrapText (additiveMeasure w) fs W1 text).length : ℚ) := by
        exact_mod_cast wrapText_count_mono w hw fs W1 W2 hW text
      have hq : (0:ℚ) ≤ (fs : ℚ) * (7/5) := by positivity
      have hP2 : ((wrapText (additiveMeasure w) fs W2 text).length : ℚ) *
          ((fs : ℚ) * (7/5)) ≤ H :=
        le_trans (mul_le_mul_of_nonneg_right hcnt hq) hP
      obtain ⟨fs2, L2, lh2, hs2, hge⟩ :=
        searchLoop_ge_of_valid (additiveMeasure w) text W2 H
          (Int.toNat ⌊H⌋) fs hfs1 hfsn hP2
      rw [hs2]
      exact hge

/-- C3 (amended): the returned line height is always `chosenFontSize * 1.4`;
increasing `maxHeight` never decreases the chosen font size, for every
measurement function; and increasing `maxWidth` never decreases it for
additive measurements with non-negative character widths.  (For arbitrary
non-additive measurement functions, width-monotonicity fails; see the
counterexample.) -/
theorem fit_fontSize_monotone :
    (∀ (m : ℕ → List Char → ℚ) (text : List Char) (W H1 H2 : ℚ), H1 ≤ H2 →
      chosenFontSize m text W H1 ≤ chosenFontSize m text W H2) ∧
    (∀ (w : ℕ → Char → ℚ), (∀ fs c, 0 ≤ w fs c) →
      ∀ (text : List Char) (W1 W2 H : ℚ), W1 ≤ W2 →
      chosenFontSize (additiveMeasure w) text W1 H ≤
        chosenFontSize (additiveMeasure w) text W2 H) :=
  ⟨chosen_mono_height, chosen_mono_width⟩

/-- The returned line height always equals `chosenFontSize * 1.4`, tying the
chosen-font-size function to the fitter's observable output. -/
theorem fit_lineHeight_eq (m : ℕ → List Char → ℚ) (text : List Char)
    (W H : ℚ) :
    (getAdjustedFontAndLines m text W H).lineHeight =
      (chosenFontSize m text W H : ℚ) * (7/5) := by
  rw [getAdjustedFontAndLines, chosenFontSize]
  by_cases hdeg : isBlank text = true ∨ W ≤ 0 ∨ H ≤ 0
  · rw [if_pos hdeg, if_pos hdeg]
    norm_num
  · rw [if_neg hdeg, if_neg hdeg]
    cases hs : searchLoop m text W H (Int.toNat ⌊H⌋) with
    | some v =>
      obtain ⟨fs, L, lh⟩ := v
      obtain ⟨_, _, hlh, _, _, _⟩ :=
        searchLoop_some_spec m text W H (Int.toNat ⌊H⌋) fs L lh hs
      simp only []
      exact hlh
    | none =>
      simp only []
      rw [fallbackResult]
      simp only []
      by_cases hsmall : H < 7/5
      · rw [if_pos hsmall, if_pos hsmall]
        norm_num
      · rw [if_neg hsmall, if_neg hsmall]
        split <;> norm_num

/-- An adversarial (non-additive) measurement used to refute width
monotonicity of the chosen font size. -/
def measureAdv : ℕ → List Char → ℚ := fun _ s =>
  match s with
  | ['a'] => 1
  | ['a', 'b'] => 3
  | ['a', 'b', 'c'] => 100
  | ['b'] => 1
  | ['b', 'c'] => 1
  | ['b', 'c', 'd'] => 1
  | ['c'] => 1
  | ['c', 'd'] => 100
  | ['d'] => 1
  | _ => (s.length : ℚ)

/-- Counterexample to C3 as stated: with the measurement `measureAdv` and
text "abcd" at `maxHeight = 8.4`, widening the box from `maxWidth = 2` to
`maxWidth = 5` changes the greedy wrap from 2 lines to 3 lines and drops the
chosen font size from 3 to 2. -/
theorem fit_fontSize_monotone_cex :
    chosenFontSize measureAdv ['a', 'b', 'c', 'd'] 5 (42/5) <
      chosenFontSize measureAdv ['a', 'b', 'c', 'd'] 2 (42/5) := by
  have hfloor : Int.toNat ⌊(42/5 : ℚ)⌋ = 8 := by
    rw [show ⌊(42/5 : ℚ)⌋ = 8 by norm_num]
    rfl
  have h2 : chosenFontSize measureAdv ['a', 'b', 'c', 'd'] 2 (42/5) = 3 := by
    rw [chosenFontSize,
      if_neg (fit_cond_neg ['a', 'b', 'c', 'd'] 2 (42/5) (by decide)
        (by norm_num) (by norm_num)), hfloor]
    norm_num [searchLoop, wrapText, wrapLoop, measureAdv, List.cons_ne_nil]
  have h5 : chosenFontSize measureAdv ['a', 'b', 'c', 'd'] 5 (42/5) = 2 := by
    rw [chosenFontSize,
      if_neg (fit_cond_neg ['a', 'b', 'c', 'd'] 5 (42/5) (by decide)
        (by norm_num) (by norm_num)), hfloor]
    norm_num [searchLoop, wrapText, wrapLoop, measureAdv, List.cons_ne_nil]
  rw [h2, h5]
  norm_num

/-- A concrete additive width table: every character is 10 wide. -/
def wTen : ℕ → Char → ℚ := fun _ _ => 10

/-- Witness for C3 (amended) at concrete inputs. -/
theorem fit_fontSize_monotone_witness :
    chosenFontSize (additiveMeasure wTen) ['a'] 10 5 ≤
      chosenFontSize (additiveMeasure wTen) ['a'] 10 9 ∧
    chosenFontSize (additiveMeasure wTen) ['a'] 5 9 ≤
      chosenFontSize (additiveMeasure wTen) ['a'] 10 9 :=
  ⟨fit_fontSize_monotone.1 (additiveMeasure wTen) ['a'] 10 5 9 (by norm_num),
   fit_fontSize_monotone.2 wTen (fun _ _ => by norm_num [wTen]) ['a'] 5 10 9
     (by norm_num)⟩

end Whiteboard
